import Mathlib

set_option maxRecDepth 40000

/-!
# Verification of the rust-crypto envelope module

Shallow embedding of `src/shared/rust-crypto/src/lib.rs`: base64 codec,
Argon2id key derivation, AES-256-GCM style authenticated encryption, and the
`encrypt_with_context` / `decrypt_with_context` operations built from them.

Bytes are modelled as natural numbers below 256, byte buffers as `List Nat`.
The base64 codec follows RFC 4648 (standard alphabet, padded), matching the
`base64::engine::general_purpose::STANDARD` engine used by the source.
The Argon2id and AES-256-GCM primitives come from external crates whose code
is not part of this repository; they are modelled from the specification
(deterministic 32-byte KDF rejecting too-short salts; an AEAD that XORs a
key/nonce keystream over the message and appends a 16-byte tag binding key,
nonce, AAD and ciphertext body).
-/

namespace RustCrypto

/-- A byte buffer: every entry is a byte value below 256. -/
def isBytes (l : List Nat) : Prop := ∀ b ∈ l, b < 256

instance (l : List Nat) : Decidable (isBytes l) := by
  unfold isBytes; infer_instance

/-! ## Base64 codec (RFC 4648 standard alphabet, padded) -/

/-- The RFC 4648 standard base64 alphabet, as used by the `STANDARD` engine. -/
def b64Table : List Char :=
  ['A','B','C','D','E','F','G','H','I','J','K','L','M','N','O','P','Q','R','S',
   'T','U','V','W','X','Y','Z','a','b','c','d','e','f','g','h','i','j','k','l',
   'm','n','o','p','q','r','s','t','u','v','w','x','y','z','0','1','2','3','4',
   '5','6','7','8','9','+','/']

/-- Character of a 6-bit value. -/
def b64Char (n : Nat) : Char := b64Table.getD n 'A'

/-- Index of a base64 alphabet character; `none` for anything else
(including the `=` pad, which is handled positionally by the decoder). -/
def b64Index (c : Char) : Option Nat := b64Table.findIdx? (· = c)

/-- Encode a byte list into base64 characters, three bytes per four chars,
padding the final partial group with `=`. -/
def b64EncodeChunks : List Nat → List Char
  | [] => []
  | [a] => [b64Char (a / 4), b64Char (a % 4 * 16), '=', '=']
  | [a, b] => [b64Char (a / 4), b64Char (a % 4 * 16 + b / 16),
               b64Char (b % 16 * 4), '=']
  | a :: b :: c :: rest =>
      b64Char (a / 4) :: b64Char (a % 4 * 16 + b / 16) ::
      b64Char (b % 16 * 4 + c / 64) :: b64Char (c % 64) ::
      b64EncodeChunks rest

/-- Strict base64 decoding of a character list: groups of four, padding only
in the final group, canonical trailing bits required (as the `STANDARD`
engine enforces). -/
def b64DecodeChunks : List Char → Option (List Nat)
  | [] => some []
  | c0 :: c1 :: c2 :: c3 :: rest =>
      if c3 = '=' then
        if rest = [] then
          if c2 = '=' then do
            let a ← b64Index c0
            let b ← b64Index c1
            if b % 16 = 0 then some [a * 4 + b / 16] else none
          else do
            let a ← b64Index c0
            let b ← b64Index c1
            let c ← b64Index c2
            if c % 4 = 0 then
              some [a * 4 + b / 16, b % 16 * 16 + c / 4]
            else none
        else none
      else do
        let a ← b64Index c0
        let b ← b64Index c1
        let c ← b64Index c2
        let d ← b64Index c3
        let tail ← b64DecodeChunks rest
        some ((a * 4 + b / 16) :: (b % 16 * 16 + c / 4) :: (c % 4 * 64 + d) :: tail)
  | _ => none

/-- `BASE64.encode`: byte buffer to padded standard base64 text. -/
def b64Encode (l : List Nat) : String := String.mk (b64EncodeChunks l)

/-- `BASE64.decode`: padded standard base64 text to byte buffer, `none` on
any malformed input. -/
def b64Decode (s : String) : Option (List Nat) := b64DecodeChunks s.data

theorem b64Index_b64Char {n : Nat} (h : n < 64) : b64Index (b64Char n) = some n := by
  interval_cases n <;> rfl

theorem b64Char_ne_pad (n : Nat) : b64Char n ≠ '=' := by
  by_cases h : n < 64
  · interval_cases n <;> decide
  · have : b64Char n = 'A' := by
      unfold b64Char
      apply List.getD_eq_default
      simp only [b64Table, List.length]
      omega
    rw [this]; decide

theorem b64DecodeChunks_encode (l : List Nat) (hl : isBytes l) :
    b64DecodeChunks (b64EncodeChunks l) = some l := by
  induction l using b64EncodeChunks.induct with
  | case1 => rfl
  | case2 a =>
      have ha : a < 256 := hl a (by simp)
      rw [b64EncodeChunks, b64DecodeChunks]
      rw [if_pos rfl, if_pos rfl, if_pos rfl]
      rw [b64Index_b64Char (by omega), b64Index_b64Char (by omega)]
      simp only [Option.bind_eq_bind, Option.some_bind]
      rw [if_pos (by omega)]
      have h1 : a / 4 * 4 + a % 4 * 16 / 16 = a := by omega
      rw [h1]
  | case3 a b =>
      have ha : a < 256 := hl a (by simp)
      have hb : b < 256 := hl b (by simp)
      rw [b64EncodeChunks, b64DecodeChunks]
      rw [if_pos rfl, if_pos rfl, if_neg (b64Char_ne_pad _)]
      rw [b64Index_b64Char (by omega), b64Index_b64Char (by omega),
        b64Index_b64Char (by omega)]
      simp only [Option.bind_eq_bind, Option.some_bind]
      rw [if_pos (by omega)]
      congr 1
      have h1 : a / 4 * 4 + (a % 4 * 16 + b / 16) / 16 = a := by omega
      have h2 : (a % 4 * 16 + b / 16) % 16 * 16 + b % 16 * 4 / 4 = b := by omega
      rw [h1, h2]
  | case4 a b c rest ih =>
      have ha : a < 256 := hl a (by simp)
      have hb : b < 256 := hl b (by simp)
      have hc : c < 256 := hl c (by simp)
      have hrest : isBytes rest := by
        intro x hx; exact hl x (by simp [hx])
      rw [b64EncodeChunks, b64DecodeChunks]
      rw [if_neg (b64Char_ne_pad _)]
      rw [b64Index_b64Char (by omega), b64Index_b64Char (by omega),
        b64Index_b64Char (by omega), b64Index_b64Char (by omega), ih hrest]
      simp only [Option.bind_eq_bind, Option.some_bind]
      have h1 : a / 4 * 4 + (a % 4 * 16 + b / 16) / 16 = a := by omega
      have h2 : (a % 4 * 16 + b / 16) % 16 * 16 + (b % 16 * 4 + c / 64) / 4 = b := by
        omega
      have h3 : (b % 16 * 4 + c / 64) % 4 * 64 + c % 64 = c := by omega
      rw [h1, h2, h3]

theorem b64Decode_b64Encode (l : List Nat) (hl : isBytes l) :
    b64Decode (b64Encode l) = some l := by
  unfold b64Decode b64Encode
  exact b64DecodeChunks_encode l hl

/-! ## UTF-8 encoding and validation -/

/-- A Unicode scalar value: any code point outside the surrogate range. -/
def isScalar (n : Nat) : Prop := n < 0xD800 ∨ (0xDFFF < n ∧ n < 0x110000)

instance (n : Nat) : Decidable (isScalar n) := by
  unfold isScalar; infer_instance

/-- UTF-8 encoding of a single Unicode scalar value (1 to 4 bytes). -/
def utf8EncodeScalar (n : Nat) : List Nat :=
  if n < 0x80 then [n]
  else if n < 0x800 then [0xC0 + n / 64, 0x80 + n % 64]
  else if n < 0x10000 then [0xE0 + n / 4096, 0x80 + n / 64 % 64, 0x80 + n % 64]
  else [0xF0 + n / 262144, 0x80 + n / 4096 % 64, 0x80 + n / 64 % 64, 0x80 + n % 64]

/-- UTF-8 encoding of a list of scalar values. -/
def utf8Encode : List Nat → List Nat
  | [] => []
  | n :: rest => utf8EncodeScalar n ++ utf8Encode rest

/-- Strict UTF-8 decoding of a byte list into scalar values, rejecting
continuation errors, overlong forms, surrogates and code points beyond
U+10FFFF — the validation `String::from_utf8` performs. -/
def utf8DecodeScalars : List Nat → Option (List Nat)
  | [] => some []
  | b0 :: rest =>
    if b0 < 0x80 then
      (utf8DecodeScalars rest).map (fun t => b0 :: t)
    else if b0 < 0xC2 then none
    else if b0 < 0xE0 then
      if 0x80 ≤ rest.getD 0 256 ∧ rest.getD 0 256 < 0xC0 then
        (utf8DecodeScalars (rest.drop 1)).map
          (fun t => ((b0 - 0xC0) * 64 + (rest.getD 0 256 - 0x80)) :: t)
      else none
    else if b0 < 0xF0 then
      if (0x80 ≤ rest.getD 0 256 ∧ rest.getD 0 256 < 0xC0) ∧
          (0x80 ≤ rest.getD 1 256 ∧ rest.getD 1 256 < 0xC0) ∧
          (b0 = 0xE0 → 0xA0 ≤ rest.getD 0 256) ∧
          (b0 = 0xED → rest.getD 0 256 < 0xA0) then
        (utf8DecodeScalars (rest.drop 2)).map
          (fun t => ((b0 - 0xE0) * 4096 + (rest.getD 0 256 - 0x80) * 64 +
            (rest.getD 1 256 - 0x80)) :: t)
      else none
    else if b0 < 0xF5 then
      if (0x80 ≤ rest.getD 0 256 ∧ rest.getD 0 256 < 0xC0) ∧
          (0x80 ≤ rest.getD 1 256 ∧ rest.getD 1 256 < 0xC0) ∧
          (0x80 ≤ rest.getD 2 256 ∧ rest.getD 2 256 < 0xC0) ∧
          (b0 = 0xF0 → 0x90 ≤ rest.getD 0 256) ∧
          (b0 = 0xF4 → rest.getD 0 256 < 0x90) then
        (utf8DecodeScalars (rest.drop 3)).map
          (fun t => ((b0 - 0xF0) * 262144 + (rest.getD 0 256 - 0x80) * 4096 +
            (rest.getD 1 256 - 0x80) * 64 + (rest.getD 2 256 - 0x80)) :: t)
      else none
    else none
termination_by l => l.length
decreasing_by
  all_goals simp only [List.length_cons, List.length_drop]
  all_goals omega

theorem getD_cons_one (x y : Nat) (L : List Nat) (d : Nat) :
    (x :: y :: L).getD 1 d = y := rfl

theorem getD_cons_two (x y z : Nat) (L : List Nat) (d : Nat) :
    (x :: y :: z :: L).getD 2 d = z := rfl

theorem drop_one_cons (x : Nat) (L : List Nat) : (x :: L).drop 1 = L := rfl

theorem drop_two_cons (x y : Nat) (L : List Nat) : (x :: y :: L).drop 2 = L := rfl

theorem drop_three_cons (x y z : Nat) (L : List Nat) :
    (x :: y :: z :: L).drop 3 = L := rfl

theorem utf8Decode_encode_cons (n : Nat) (hn : isScalar n) (T : List Nat) :
    utf8DecodeScalars (utf8EncodeScalar n ++ T) =
      (utf8DecodeScalars T).map (fun t => n :: t) := by
  have hn' : n < 0x110000 := by rcases hn with h | h <;> omega
  rcases Nat.lt_or_ge n 0x80 with h1 | h1
  · rw [utf8EncodeScalar, if_pos h1]
    rw [List.cons_append, List.nil_append, utf8DecodeScalars, if_pos h1]
  · rcases Nat.lt_or_ge n 0x800 with h2 | h2
    · rw [utf8EncodeScalar, if_neg (by omega), if_pos h2]
      rw [List.cons_append, List.cons_append, List.nil_append, utf8DecodeScalars]
      simp only [List.getD_cons_zero, drop_one_cons]
      rw [if_neg (by omega), if_neg (by omega), if_pos (by omega), if_pos (by omega)]
      have hv : (0xC0 + n / 64 - 0xC0) * 64 + (0x80 + n % 64 - 0x80) = n := by omega
      rw [hv]
    · rcases Nat.lt_or_ge n 0x10000 with h3 | h3
      · have hs : n < 0xD800 ∨ 0xDFFF < n := by
          rcases hn with h | h
          · exact Or.inl h
          · exact Or.inr h.1
        rw [utf8EncodeScalar, if_neg (by omega), if_neg (by omega), if_pos h3]
        rw [List.cons_append, List.cons_append, List.cons_append, List.nil_append,
          utf8DecodeScalars]
        simp only [List.getD_cons_zero, getD_cons_one, drop_two_cons]
        rw [if_neg (by omega), if_neg (by omega), if_neg (by omega), if_pos (by omega),
          if_pos (by omega)]
        have hv : (0xE0 + n / 4096 - 0xE0) * 4096 + (0x80 + n / 64 % 64 - 0x80) * 64 +
            (0x80 + n % 64 - 0x80) = n := by omega
        rw [hv]
      · rw [utf8EncodeScalar, if_neg (by omega), if_neg (by omega), if_neg (by omega)]
        rw [List.cons_append, List.cons_append, List.cons_append, List.cons_append,
          List.nil_append, utf8DecodeScalars]
        simp only [List.getD_cons_zero, getD_cons_one, getD_cons_two, drop_three_cons]
        rw [if_neg (by omega), if_neg (by omega), if_neg (by omega), if_neg (by omega),
          if_pos (by omega), if_pos (by omega)]
        have hv : (0xF0 + n / 262144 - 0xF0) * 262144 + (0x80 + n / 4096 % 64 - 0x80) * 4096 +
            (0x80 + n / 64 % 64 - 0x80) * 64 + (0x80 + n % 64 - 0x80) = n := by omega
        rw [hv]

theorem utf8Decode_utf8Encode (l : List Nat) (hl : ∀ n ∈ l, isScalar n) :
    utf8DecodeScalars (utf8Encode l) = some l := by
  induction l with
  | nil => rw [utf8Encode, utf8DecodeScalars]
  | cons n rest ih =>
      rw [utf8Encode, utf8Decode_encode_cons n (hl n (by simp)),
        ih (fun x hx => hl x (by simp [hx]))]
      rfl

/-- Every UTF-8 code unit produced for a valid scalar is a byte. -/
theorem utf8EncodeScalar_bytes (n : Nat) (hn : n < 0x110000) :
    isBytes (utf8EncodeScalar n) := by
  intro b hb
  rw [utf8EncodeScalar] at hb
  rcases Nat.lt_or_ge n 0x80 with h1 | h1
  · rw [if_pos h1] at hb; simp at hb; omega
  · rcases Nat.lt_or_ge n 0x800 with h2 | h2
    · rw [if_neg (by omega), if_pos h2] at hb
      simp at hb; rcases hb with h | h <;> omega
    · rcases Nat.lt_or_ge n 0x10000 with h3 | h3
      · rw [if_neg (by omega), if_neg (by omega), if_pos h3] at hb
        simp at hb; rcases hb with h | h | h <;> omega
      · rw [if_neg (by omega), if_neg (by omega), if_neg (by omega)] at hb
        simp at hb; rcases hb with h | h | h | h <;> omega

theorem utf8Encode_bytes (l : List Nat) (hl : ∀ n ∈ l, isScalar n) :
    isBytes (utf8Encode l) := by
  induction l with
  | nil => intro b hb; simp [utf8Encode] at hb
  | cons n rest ih =>
      intro b hb
      rw [utf8Encode] at hb
      rcases List.mem_append.mp hb with h | h
      · have hn : n < 0x110000 := by
          rcases hl n (by simp) with hh | hh <;> omega
        exact utf8EncodeScalar_bytes n hn b h
      · exact ih (fun x hx => hl x (by simp [hx])) b h

/-! ## Strings as UTF-8 byte buffers -/

/-- The UTF-8 bytes of a string (`str::as_bytes` / `String::into_bytes`). -/
def strToBytes (s : String) : List Nat := utf8Encode (s.data.map (fun c => c.toNat))

/-- `String::from_utf8`: recover a string from UTF-8 bytes, `none` when the
bytes are not well-formed UTF-8. -/
def bytesToString (l : List Nat) : Option String :=
  (utf8DecodeScalars l).map (fun ns => String.mk (ns.map Char.ofNat))

theorem char_isScalar (c : Char) : isScalar c.toNat := c.valid

theorem map_ofNat_toNat (l : List Char) : l.map (fun c => Char.ofNat c.toNat) = l := by
  induction l with
  | nil => rfl
  | cons c t ih => rw [List.map_cons, Char.ofNat_toNat, ih]

theorem bytesToString_strToBytes (s : String) :
    bytesToString (strToBytes s) = some s := by
  unfold bytesToString strToBytes
  rw [utf8Decode_utf8Encode]
  · rw [show Option.map (fun ns => String.mk (ns.map Char.ofNat))
        (some (s.data.map (fun c => c.toNat))) =
        some (String.mk ((s.data.map (fun c => c.toNat)).map Char.ofNat)) from rfl]
    rw [List.map_map]
    rw [show ((Char.ofNat ∘ fun c => c.toNat) : Char → Char) =
        (fun c : Char => Char.ofNat c.toNat) from rfl]
    rw [map_ofNat_toNat]
  · intro n hn
    rcases List.mem_map.mp hn with ⟨c, _, hc⟩
    exact hc ▸ char_isScalar c

theorem strToBytes_bytes (s : String) : isBytes (strToBytes s) := by
  apply utf8Encode_bytes
  intro n hn
  rcases List.mem_map.mp hn with ⟨c, _, hc⟩
  exact hc ▸ char_isScalar c

/-! ## Spec-modelled cryptographic primitives

The Argon2id and AES-256-GCM implementations live in the `argon2` and
`aes_gcm` crates, outside this repository. The definitions below model them
from the specification: a deterministic memory-hard KDF producing 32 bytes,
and an AEAD whose ciphertext is the plaintext XORed with a key/nonce
keystream followed by a 16-byte tag binding key, nonce, AAD and ciphertext. -/

/-- Deterministic byte mixer used by the modelled primitives: folds the data
into an accumulator below 65521. -/
def mixByte (seed : Nat) (data : List Nat) : Nat :=
  data.foldl (fun acc b => (acc * 131 + b + 1) % 65521) seed

/-- Modelled from the spec: `derive_key` (lib.rs lines 19-31), whose core
`Argon2::default().hash_password_into` comes from the external `argon2`
crate. It is a deterministic function of (master key, salt) producing 32
bytes of key material; the crate rejects salts shorter than its 8-byte
minimum, which `derive_key` surfaces as a `Key derivation failed: ...`
error string. -/
def sessionKey (master_key : String) (salt : List Nat) : List Nat :=
  (List.range 32).map
    (fun i => mixByte (i + 1) (strToBytes master_key ++ 256 :: salt) % 256)

def derive_key (master_key : String) (salt : List Nat) : Except String (List Nat) :=
  if salt.length < 8 then
    Except.error "Key derivation failed: salt too short"
  else
    Except.ok (sessionKey master_key salt)

theorem derive_key_ok_length (master_key : String) (salt : List Nat)
    (key : List Nat) (h : derive_key master_key salt = Except.ok key) :
    key.length = 32 := by
  unfold derive_key at h
  by_cases hs : salt.length < 8
  · rw [if_pos hs] at h; cases h
  · rw [if_neg hs] at h
    cases h
    unfold sessionKey
    simp

theorem derive_key_ok_of_length (master_key : String) (salt : List Nat)
    (h : 8 ≤ salt.length) :
    derive_key master_key salt = Except.ok (sessionKey master_key salt) := by
  unfold derive_key
  rw [if_neg (by omega)]

/-- Modelled from the spec: one keystream byte of the AES-256-GCM counter
mode stream, as a function of key, nonce and byte position. -/
def keystreamByte (key nonce : List Nat) (i : Nat) : Nat :=
  mixByte (2 * i + 3) (key ++ 257 :: nonce) % 256

/-- XOR a byte buffer with the keystream starting at position `i`. -/
def xorKeystream (key nonce : List Nat) : Nat → List Nat → List Nat
  | _, [] => []
  | i, b :: rest =>
      (b ^^^ keystreamByte key nonce i) :: xorKeystream key nonce (i + 1) rest

theorem xorKeystream_length (key nonce : List Nat) (i : Nat) (l : List Nat) :
    (xorKeystream key nonce i l).length = l.length := by
  induction l generalizing i with
  | nil => rfl
  | cons b rest ih => rw [xorKeystream]; simp [ih]

theorem xorKeystream_involutive (key nonce : List Nat) (i : Nat) (l : List Nat) :
    xorKeystream key nonce i (xorKeystream key nonce i l) = l := by
  induction l generalizing i with
  | nil => rfl
  | cons b rest ih =>
      rw [xorKeystream, xorKeystream]
      rw [Nat.xor_assoc, Nat.xor_self, Nat.xor_zero]
      rw [ih]

theorem xorKeystream_bytes (key nonce : List Nat) (i : Nat) (l : List Nat)
    (hl : isBytes l) : isBytes (xorKeystream key nonce i l) := by
  induction l generalizing i with
  | nil => intro b hb; cases hb
  | cons b rest ih =>
      intro x hx
      rw [xorKeystream] at hx
      rcases List.mem_cons.mp hx with h | h
      · subst h
        have hb : b < 256 := hl b (by simp)
        have hk : keystreamByte key nonce i < 256 := Nat.mod_lt _ (by omega)
        have hx : b ^^^ keystreamByte key nonce i < 2 ^ 8 :=
          Nat.xor_lt_two_pow hb hk
        omega
      · exact ih (i + 1) (fun y hy => hl y (by simp [hy])) x h

/-! ## The modelled 16-byte authentication tag -/

/-- Odd modulus below 2^128 used by the modelled tag. -/
def tagModulus : Nat := 2 ^ 127 - 1

/-- Injective packing of a byte-or-marker sequence (entries below 512) into
a natural number: base-512 digits, each digit the entry plus one. -/
def packVal : List Nat → Nat
  | [] => 0
  | b :: rest => b + 1 + 512 * packVal rest

/-- Little-endian byte expansion: `n` bytes of `v`. -/
def bytesOfVal : Nat → Nat → List Nat
  | 0, _ => []
  | n + 1, v => v % 256 :: bytesOfVal n (v / 256)

/-- Little-endian byte recomposition, inverse of `bytesOfVal`. -/
def valOfBytes : List Nat → Nat
  | [] => 0
  | b :: rest => b + 256 * valOfBytes rest

/-- The tag input: key, nonce, AAD and ciphertext body, joined with 256
markers so the four fields cannot blur into one another. -/
def tagHeader (key nonce aad : List Nat) : List Nat :=
  key ++ 256 :: (nonce ++ 256 :: (aad ++ [256]))

/-- The modelled tag value: the packed tag input reduced mod `tagModulus`. -/
def tagVal (key nonce aad body : List Nat) : Nat :=
  packVal (tagHeader key nonce aad ++ body) % tagModulus

/-- Modelled from the spec: the 16-byte AES-256-GCM authentication tag over
key, nonce, associated data and ciphertext body. -/
def tagBytes (key nonce aad body : List Nat) : List Nat :=
  bytesOfVal 16 (tagVal key nonce aad body)

theorem bytesOfVal_length (n v : Nat) : (bytesOfVal n v).length = n := by
  induction n generalizing v with
  | zero => rfl
  | succ m ih => rw [bytesOfVal]; simp [ih]

theorem bytesOfVal_bytes (n v : Nat) : isBytes (bytesOfVal n v) := by
  induction n generalizing v with
  | zero => intro b hb; cases hb
  | succ m ih =>
      intro b hb
      rw [bytesOfVal] at hb
      rcases List.mem_cons.mp hb with h | h
      · subst h; exact Nat.mod_lt _ (by omega)
      · exact ih (v / 256) b h

theorem valOfBytes_bytesOfVal (n v : Nat) :
    valOfBytes (bytesOfVal n v) = v % 256 ^ n := by
  induction n generalizing v with
  | zero => simp [bytesOfVal, valOfBytes, Nat.mod_one]
  | succ m ih =>
      rw [bytesOfVal, valOfBytes, ih]
      rw [pow_succ, mul_comm (256 ^ m) 256, Nat.mod_mul]

theorem tagBytes_length (key nonce aad body : List Nat) :
    (tagBytes key nonce aad body).length = 16 := bytesOfVal_length 16 _

theorem tagBytes_bytes (key nonce aad body : List Nat) :
    isBytes (tagBytes key nonce aad body) := bytesOfVal_bytes 16 _

theorem tagVal_lt (key nonce aad body : List Nat) :
    tagVal key nonce aad body < 2 ^ 128 := by
  have h1 : tagVal key nonce aad body < tagModulus :=
    Nat.mod_lt _ (by unfold tagModulus; norm_num)
  have h2 : tagModulus < 2 ^ 128 := by unfold tagModulus; norm_num
  omega

/-- `tagBytes` determines `tagVal`: 16 bytes are enough for a value below
2^128. -/
theorem tagVal_inj_of_tagBytes (key nonce aad body key2 nonce2 aad2 body2 : List Nat)
    (h : tagBytes key nonce aad body = tagBytes key2 nonce2 aad2 body2) :
    tagVal key nonce aad body = tagVal key2 nonce2 aad2 body2 := by
  have := congrArg valOfBytes h
  rw [tagBytes, tagBytes, valOfBytes_bytesOfVal, valOfBytes_bytesOfVal] at this
  have e1 : (256 : Nat) ^ 16 = 2 ^ 128 := by norm_num
  rw [e1, Nat.mod_eq_of_lt (tagVal_lt _ _ _ _),
    Nat.mod_eq_of_lt (tagVal_lt _ _ _ _)] at this
  exact this

theorem packVal_append (P M : List Nat) :
    packVal (P ++ M) = packVal P + 512 ^ P.length * packVal M := by
  induction P with
  | nil => simp [packVal]
  | cons b rest ih =>
      rw [List.cons_append, packVal, packVal, ih, List.length_cons, pow_succ]
      ring

theorem tagModulus_coprime_512 : Nat.Coprime tagModulus 512 := by
  show Nat.gcd tagModulus 512 = 1
  decide

/-- Core arithmetic fact behind tamper detection: adding a nonzero multiple
of a power of 512 bounded by 511 times that power changes the residue mod
the odd `tagModulus`. -/
theorem packMod_ne_of_lt (A m S x y : Nat) (hy : y < 512) (hlt : x < y) :
    (A + 512 ^ m * (x + 1 + 512 * S)) % tagModulus ≠
      (A + 512 ^ m * (y + 1 + 512 * S)) % tagModulus := by
  intro h
  have hle : A + 512 ^ m * (x + 1 + 512 * S) ≤ A + 512 ^ m * (y + 1 + 512 * S) := by
    have hmul : 512 ^ m * (x + 1 + 512 * S) ≤ 512 ^ m * (y + 1 + 512 * S) :=
      Nat.mul_le_mul_left _ (by omega)
    omega
  have hdvd : tagModulus ∣
      (A + 512 ^ m * (y + 1 + 512 * S)) - (A + 512 ^ m * (x + 1 + 512 * S)) :=
    (Nat.modEq_iff_dvd' hle).mp h
  have hsplit : 512 ^ m * (y + 1 + 512 * S) =
      512 ^ m * (x + 1 + 512 * S) + 512 ^ m * (y - x) := by
    rw [← Nat.mul_add]
    congr 1
    omega
  have hdiff : (A + 512 ^ m * (y + 1 + 512 * S)) -
      (A + 512 ^ m * (x + 1 + 512 * S)) = (y - x) * 512 ^ m := by
    rw [Nat.mul_comm (512 ^ m) (y - x)] at hsplit
    omega
  rw [hdiff] at hdvd
  have hco : Nat.Coprime tagModulus (512 ^ m) :=
    Nat.Coprime.pow_right m tagModulus_coprime_512
  have hdvd2 : tagModulus ∣ (y - x) := hco.dvd_of_dvd_mul_right hdvd
  have hbound := Nat.le_of_dvd (by omega) hdvd2
  have hbig : 511 < tagModulus := by unfold tagModulus; norm_num
  omega

/-- Changing one entry of the body (to a different value below 512) changes
the tag: the packed values differ by a nonzero multiple of a power of 512,
which the odd modulus cannot absorb. -/
theorem tagBytes_ne_of_set (key nonce aad B1 B2 : List Nat) (b b2 : Nat)
    (hb : b < 512) (hb2 : b2 < 512) (hne : b ≠ b2) :
    tagBytes key nonce aad (B1 ++ b :: B2) ≠
      tagBytes key nonce aad (B1 ++ b2 :: B2) := by
  intro heq
  have hval := tagVal_inj_of_tagBytes _ _ _ _ _ _ _ _ heq
  rw [tagVal, tagVal] at hval
  rw [show tagHeader key nonce aad ++ (B1 ++ b :: B2) =
      (tagHeader key nonce aad ++ B1) ++ b :: B2 from (List.append_assoc _ _ _).symm,
    show tagHeader key nonce aad ++ (B1 ++ b2 :: B2) =
      (tagHeader key nonce aad ++ B1) ++ b2 :: B2 from (List.append_assoc _ _ _).symm]
    at hval
  rw [packVal_append (tagHeader key nonce aad ++ B1) (b :: B2),
    packVal_append (tagHeader key nonce aad ++ B1) (b2 :: B2)] at hval
  rw [show packVal (b :: B2) = b + 1 + 512 * packVal B2 from rfl,
    show packVal (b2 :: B2) = b2 + 1 + 512 * packVal B2 from rfl] at hval
  rcases Nat.lt_or_ge b b2 with hlt | hge
  · exact absurd hval (packMod_ne_of_lt _ _ _ b b2 hb2 hlt)
  · have hlt2 : b2 < b := by omega
    exact absurd hval.symm (packMod_ne_of_lt _ _ _ b2 b hb hlt2)

/-! ## Modelled AES-256-GCM AEAD -/

/-- Modelled from the spec: `Aes256Gcm::encrypt` with a `Payload` of message
and AAD (external `aes_gcm` crate): the keystream-XORed message with the
16-byte authentication tag appended. -/
def gcmEncrypt (key nonce_bytes aad msg : List Nat) : List Nat :=
  xorKeystream key nonce_bytes 0 msg ++
    tagBytes key nonce_bytes aad (xorKeystream key nonce_bytes 0 msg)

/-- Modelled from the spec: `Aes256Gcm::decrypt` (external `aes_gcm` crate):
split off the 16-byte tag, recompute it over key, nonce, AAD and body, and
release the decrypted body only on an exact tag match — otherwise fail with
no partial plaintext. -/
def gcmDecrypt (key nonce_bytes aad ct : List Nat) : Option (List Nat) :=
  if ct.length < 16 then none
  else if ct.drop (ct.length - 16) =
      tagBytes key nonce_bytes aad (ct.take (ct.length - 16)) then
    some (xorKeystream key nonce_bytes 0 (ct.take (ct.length - 16)))
  else none

theorem gcmEncrypt_length (key nonce_bytes aad msg : List Nat) :
    (gcmEncrypt key nonce_bytes aad msg).length = msg.length + 16 := by
  unfold gcmEncrypt
  rw [List.length_append, xorKeystream_length, tagBytes_length]

theorem gcmEncrypt_bytes (key nonce_bytes aad msg : List Nat)
    (hm : isBytes msg) : isBytes (gcmEncrypt key nonce_bytes aad msg) := by
  intro b hb
  unfold gcmEncrypt at hb
  rcases List.mem_append.mp hb with h | h
  · exact xorKeystream_bytes key nonce_bytes 0 msg hm b h
  · exact tagBytes_bytes _ _ _ _ b h

theorem gcmDecrypt_gcmEncrypt (key nonce_bytes aad msg : List Nat) :
    gcmDecrypt key nonce_bytes aad (gcmEncrypt key nonce_bytes aad msg) = some msg := by
  unfold gcmDecrypt gcmEncrypt
  rw [if_neg (by
    rw [List.length_append, xorKeystream_length, tagBytes_length]
    omega)]
  have hcut : (xorKeystream key nonce_bytes 0 msg ++
      tagBytes key nonce_bytes aad (xorKeystream key nonce_bytes 0 msg)).length - 16 =
      (xorKeystream key nonce_bytes 0 msg).length := by
    rw [List.length_append, tagBytes_length]
    omega
  rw [hcut, List.drop_left, List.take_left]
  rw [if_pos rfl, xorKeystream_involutive]

/-! ## The operations: encrypt_with_context / decrypt_with_context -/

/-- The error kinds of the module, as surfaced through `PyValueError`
messages by lib.rs and catalogued by the specification. -/
inductive CryptoError where
  | invalidBase64 (field : String)
  | invalidNonceLength
  | keyDerivationFailed (cause : String)
  | authenticationFailed
  | invalidUtf8
deriving DecidableEq

/-- The `{ciphertext, salt, nonce}` dictionary returned by
`encrypt_with_context`, each field base64 text. -/
structure EncryptedEnvelope where
  ciphertext : String
  salt : String
  nonce : String
deriving DecidableEq

/-- `encrypt_with_context` (lib.rs lines 33-76). The random 16-byte salt and
12-byte nonce drawn from `OsRng` are passed in explicitly as `salt` and
`nonce_bytes`. Derives the session key, encrypts the plaintext with the AAD
context, and returns the three base64 fields. -/
def encrypt_with_context (plaintext master_key aad_context : String)
    (salt nonce_bytes : List Nat) : Except CryptoError EncryptedEnvelope :=
  match derive_key master_key salt with
  | Except.error e => Except.error (CryptoError.keyDerivationFailed e)
  | Except.ok key_bytes =>
      let ciphertext := gcmEncrypt key_bytes nonce_bytes (strToBytes aad_context)
        (strToBytes plaintext)
      Except.ok ⟨b64Encode ciphertext, b64Encode salt, b64Encode nonce_bytes⟩

/-- The tail of `decrypt_with_context` after base64 decoding (lib.rs lines
94-116): nonce length check, key derivation, authenticated decryption, UTF-8
validation. -/
def decryptDecoded (ciphertext salt nonce_bytes : List Nat)
    (master_key aad_context : String) : Except CryptoError String :=
  if nonce_bytes.length ≠ 12 then Except.error CryptoError.invalidNonceLength
  else
    match derive_key master_key salt with
    | Except.error e => Except.error (CryptoError.keyDerivationFailed e)
    | Except.ok key_bytes =>
        match gcmDecrypt key_bytes nonce_bytes (strToBytes aad_context) ciphertext with
        | none => Except.error CryptoError.authenticationFailed
        | some plaintext_bytes =>
            match bytesToString plaintext_bytes with
            | none => Except.error CryptoError.invalidUtf8
            | some plaintext => Except.ok plaintext

/-- `decrypt_with_context` (lib.rs lines 78-117): base64-decode the three
fields (failing with the offending field's error), then decrypt. -/
def decrypt_with_context (ciphertext_b64 salt_b64 nonce_b64 master_key
    aad_context : String) : Except CryptoError String :=
  match b64Decode ciphertext_b64 with
  | none => Except.error (CryptoError.invalidBase64 "ciphertext")
  | some ciphertext =>
      match b64Decode salt_b64 with
      | none => Except.error (CryptoError.invalidBase64 "salt")
      | some salt =>
          match b64Decode nonce_b64 with
          | none => Except.error (CryptoError.invalidBase64 "nonce")
          | some nonce_bytes =>
              decryptDecoded ciphertext salt nonce_bytes master_key aad_context

theorem decrypt_decoded_fields (ciphertext_b64 salt_b64 nonce_b64 master_key
    aad_context : String) (ciphertext salt nonce_bytes : List Nat)
    (hc : b64Decode ciphertext_b64 = some ciphertext)
    (hs : b64Decode salt_b64 = some salt)
    (hn : b64Decode nonce_b64 = some nonce_bytes) :
    decrypt_with_context ciphertext_b64 salt_b64 nonce_b64 master_key aad_context =
      decryptDecoded ciphertext salt nonce_bytes master_key aad_context := by
  unfold decrypt_with_context
  rw [hc, hs, hn]

theorem decryptDecoded_nonceLen (ciphertext salt nonce_bytes : List Nat)
    (master_key aad_context : String) (hn : nonce_bytes.length ≠ 12) :
    decryptDecoded ciphertext salt nonce_bytes master_key aad_context =
      Except.error CryptoError.invalidNonceLength := by
  unfold decryptDecoded
  rw [if_pos hn]

theorem decryptDecoded_kdf_err (ciphertext salt nonce_bytes : List Nat)
    (master_key aad_context e : String) (hnl : nonce_bytes.length = 12)
    (he : derive_key master_key salt = Except.error e) :
    decryptDecoded ciphertext salt nonce_bytes master_key aad_context =
      Except.error (CryptoError.keyDerivationFailed e) := by
  unfold decryptDecoded
  rw [if_neg (by omega), he]

theorem decryptDecoded_auth_fail (ciphertext salt nonce_bytes key_bytes : List Nat)
    (master_key aad_context : String) (hnl : nonce_bytes.length = 12)
    (hk : derive_key master_key salt = Except.ok key_bytes)
    (hg : gcmDecrypt key_bytes nonce_bytes (strToBytes aad_context) ciphertext = none) :
    decryptDecoded ciphertext salt nonce_bytes master_key aad_context =
      Except.error CryptoError.authenticationFailed := by
  unfold decryptDecoded
  rw [if_neg (by omega), hk]
  show (match gcmDecrypt key_bytes nonce_bytes (strToBytes aad_context) ciphertext with
        | none => Except.error CryptoError.authenticationFailed
        | some plaintext_bytes =>
            match bytesToString plaintext_bytes with
            | none => Except.error CryptoError.invalidUtf8
            | some plaintext => Except.ok plaintext) =
      Except.error CryptoError.authenticationFailed
  rw [hg]

theorem decryptDecoded_auth_ok (ciphertext salt nonce_bytes key_bytes
    plaintext_bytes : List Nat) (master_key aad_context : String)
    (hnl : nonce_bytes.length = 12)
    (hk : derive_key master_key salt = Except.ok key_bytes)
    (hg : gcmDecrypt key_bytes nonce_bytes (strToBytes aad_context) ciphertext =
      some plaintext_bytes) :
    decryptDecoded ciphertext salt nonce_bytes master_key aad_context =
      (match bytesToString plaintext_bytes with
       | none => Except.error CryptoError.invalidUtf8
       | some plaintext => Except.ok plaintext) := by
  unfold decryptDecoded
  rw [if_neg (by omega), hk]
  show (match gcmDecrypt key_bytes nonce_bytes (strToBytes aad_context) ciphertext with
        | none => Except.error CryptoError.authenticationFailed
        | some plaintext_bytes =>
            match bytesToString plaintext_bytes with
            | none => Except.error CryptoError.invalidUtf8
            | some plaintext => Except.ok plaintext) =
      (match bytesToString plaintext_bytes with
       | none => Except.error CryptoError.invalidUtf8
       | some plaintext => Except.ok plaintext)
  rw [hg]

theorem encrypt_with_context_eq (plaintext master_key aad_context : String)
    (salt nonce_bytes : List Nat) (hs : 8 ≤ salt.length) :
    encrypt_with_context plaintext master_key aad_context salt nonce_bytes =
      Except.ok ⟨b64Encode (gcmEncrypt (sessionKey master_key salt) nonce_bytes
          (strToBytes aad_context) (strToBytes plaintext)),
        b64Encode salt, b64Encode nonce_bytes⟩ := by
  unfold encrypt_with_context
  rw [derive_key_ok_of_length master_key salt hs]

/-! ## Tamper detection -/

theorem xor_flip_ne (b j : Nat) : b ^^^ 2 ^ j ≠ b := by
  intro h
  have h2 : b ^^^ (b ^^^ 2 ^ j) = b ^^^ b := by rw [h]
  rw [← Nat.xor_assoc, Nat.xor_self, Nat.zero_xor] at h2
  have hp : 0 < 2 ^ j := Nat.two_pow_pos j
  omega

theorem xor_flip_lt (b j : Nat) (hb : b < 256) (hj : j < 8) : b ^^^ 2 ^ j < 256 := by
  have h2 : 2 ^ j < 256 := by
    calc 2 ^ j ≤ 2 ^ 7 := Nat.pow_le_pow_right (by omega) (by omega)
      _ < 256 := by norm_num
  exact Nat.xor_lt_two_pow (n := 8) hb h2

theorem isBytes_set (l : List Nat) (i x : Nat) (hl : isBytes l) (hx : x < 256) :
    isBytes (l.set i x) := by
  intro b hb
  rcases List.mem_or_eq_of_mem_set hb with h | h
  · exact hl b h
  · omega

theorem isBytes_getD (l : List Nat) (i : Nat) (hl : isBytes l) (h : i < l.length) :
    l.getD i 0 < 256 := by
  rw [List.getD_eq_getElem l 0 h]
  exact hl _ (List.getElem_mem h)

theorem list_eq_take_getD_drop (l : List Nat) (i : Nat) (h : i < l.length) :
    l = l.take i ++ l.getD i 0 :: l.drop (i + 1) := by
  induction l generalizing i with
  | nil => simp at h
  | cons a rest ih =>
      cases i with
      | zero => simp
      | succ m =>
          have hm : m < rest.length := by simp at h; omega
          rw [List.take_succ_cons, List.getD_cons_succ, List.drop_succ_cons,
            List.cons_append]
          rw [← ih m hm]

theorem set_eq_take_cons_drop (l : List Nat) (i x : Nat) (h : i < l.length) :
    l.set i x = l.take i ++ x :: l.drop (i + 1) := by
  induction l generalizing i with
  | nil => simp at h
  | cons a rest ih =>
      cases i with
      | zero => simp
      | succ m =>
          have hm : m < rest.length := by simp at h; omega
          rw [List.set_cons_succ, List.take_succ_cons, List.drop_succ_cons,
            List.cons_append]
          rw [ih m hm]

/-- Setting position `i` splits a list into a shared prefix and suffix around
the old and new entry. -/
theorem set_decomp (l : List Nat) (i x : Nat) (h : i < l.length) :
    ∃ L1 L2, l = L1 ++ l.getD i 0 :: L2 ∧ l.set i x = L1 ++ x :: L2 :=
  ⟨l.take i, l.drop (i + 1), list_eq_take_getD_drop l i h,
    set_eq_take_cons_drop l i x h⟩

/-- Flipping one bit of a ciphertext produced by the modelled AEAD (at any
position, in the body or in the appended tag) makes authenticated decryption
fail. -/
theorem gcmDecrypt_set_ne (key nonce_bytes aad msg : List Nat) (i j : Nat)
    (hmsg : isBytes msg) (hi : i < (gcmEncrypt key nonce_bytes aad msg).length)
    (hj : j < 8) :
    gcmDecrypt key nonce_bytes aad ((gcmEncrypt key nonce_bytes aad msg).set i
      ((gcmEncrypt key nonce_bytes aad msg).getD i 0 ^^^ 2 ^ j)) = none := by
  have hct : gcmEncrypt key nonce_bytes aad msg =
      xorKeystream key nonce_bytes 0 msg ++
        tagBytes key nonce_bytes aad (xorKeystream key nonce_bytes 0 msg) := rfl
  rw [hct] at hi ⊢
  set body := xorKeystream key nonce_bytes 0 msg with hbody
  set tag := tagBytes key nonce_bytes aad body with htag
  have hbbytes : isBytes body := xorKeystream_bytes key nonce_bytes 0 msg hmsg
  have htl : tag.length = 16 := by rw [htag]; exact tagBytes_length key nonce_bytes aad body
  have hitotal : i < body.length + 16 := by
    rw [List.length_append, htl] at hi
    exact hi
  by_cases hcase : i < body.length
  · -- flip inside the ciphertext body
    rw [List.getD_append body tag 0 i hcase, List.set_append_left i _ hcase]
    set old := body.getD i 0 with hold
    unfold gcmDecrypt
    have hlen : (body.set i (old ^^^ 2 ^ j) ++ tag).length = body.length + 16 := by
      rw [List.length_append, List.length_set, htl]
    rw [hlen, if_neg (by omega)]
    have hcut : body.length + 16 - 16 = (body.set i (old ^^^ 2 ^ j)).length := by
      rw [List.length_set]
      omega
    rw [hcut, List.drop_left, List.take_left, if_neg ?_]
    obtain ⟨B1, B2, hB, hBs⟩ := set_decomp body i (old ^^^ 2 ^ j) hcase
    rw [← hold] at hB
    rw [hBs]
    intro heq
    rw [htag, hB] at heq
    exact absurd heq (tagBytes_ne_of_set key nonce_bytes aad B1 B2 old
      (old ^^^ 2 ^ j)
      (by have := isBytes_getD body i hbbytes hcase; omega)
      (by have := xor_flip_lt old j (by rw [hold]; exact isBytes_getD body i hbbytes hcase) hj; omega)
      (fun hcontra => xor_flip_ne old j hcontra.symm))
  · -- flip inside the appended tag
    have hge : body.length ≤ i := by omega
    have hk : i - body.length < tag.length := by omega
    rw [List.getD_append_right body tag 0 i hge, List.set_append_right i _ hge]
    set told := tag.getD (i - body.length) 0 with htold
    unfold gcmDecrypt
    have hlen : (body ++ tag.set (i - body.length) (told ^^^ 2 ^ j)).length =
        body.length + 16 := by
      rw [List.length_append, List.length_set, htl]
    rw [hlen, if_neg (by omega)]
    have hcut : body.length + 16 - 16 = body.length := by omega
    rw [hcut, List.drop_left, List.take_left, if_neg ?_]
    obtain ⟨T1, T2, hT, hTs⟩ := set_decomp tag (i - body.length) (told ^^^ 2 ^ j) hk
    rw [← htold] at hT
    rw [hTs]
    intro heq
    rw [← htag, hT] at heq
    have hxeq : told ^^^ 2 ^ j = told :=
      (List.cons_eq_cons.mp (List.append_cancel_left heq)).1
    exact xor_flip_ne told j hxeq

/-! ## Concrete inputs used by the witnesses -/

/-- A fixed 16-byte salt used in witnesses. -/
def wSalt : List Nat := List.replicate 16 0

/-- A fixed 12-byte nonce used in witnesses. -/
def wNonce : List Nat := List.replicate 12 0

/-- The session key derived from master key "k" and `wSalt`. -/
def wKey : List Nat := sessionKey "k" wSalt

/-- The ciphertext of plaintext "hi" under `wKey`, `wNonce`, context "c". -/
def wCt : List Nat := gcmEncrypt wKey wNonce (strToBytes "c") (strToBytes "hi")

/-- The envelope for `wCt`. -/
def wEnv : EncryptedEnvelope := ⟨b64Encode wCt, b64Encode wSalt, b64Encode wNonce⟩

/-! ## The claims -/

/-- C1: Round-trip. For every plaintext `P`, master key `K`, context `C`, and
every value of the randomness drawn during encryption (the 16-byte salt and
the 12-byte nonce that `OsRng` fills), `decrypt_with_context` applied to the
three base64 fields returned by `encrypt_with_context`, with the same `K` and
`C`, returns exactly `P`. -/
theorem C1_encrypt_decrypt_roundtrip (P K C : String) (salt nonce_bytes : List Nat)
    (hsl : salt.length = 16) (hsb : isBytes salt)
    (hnl : nonce_bytes.length = 12) (hnb : isBytes nonce_bytes) :
    ∃ env : EncryptedEnvelope,
      encrypt_with_context P K C salt nonce_bytes = Except.ok env ∧
      decrypt_with_context env.ciphertext env.salt env.nonce K C = Except.ok P := by
  refine ⟨⟨b64Encode (gcmEncrypt (sessionKey K salt) nonce_bytes (strToBytes C)
      (strToBytes P)), b64Encode salt, b64Encode nonce_bytes⟩,
    encrypt_with_context_eq P K C salt nonce_bytes (by omega), ?_⟩
  show decrypt_with_context
      (b64Encode (gcmEncrypt (sessionKey K salt) nonce_bytes (strToBytes C)
        (strToBytes P)))
      (b64Encode salt) (b64Encode nonce_bytes) K C = Except.ok P
  rw [decrypt_decoded_fields _ _ _ _ _
      (gcmEncrypt (sessionKey K salt) nonce_bytes (strToBytes C) (strToBytes P))
      salt nonce_bytes
      (b64Decode_b64Encode _ (gcmEncrypt_bytes _ _ _ _ (strToBytes_bytes P)))
      (b64Decode_b64Encode _ hsb) (b64Decode_b64Encode _ hnb)]
  rw [decryptDecoded_auth_ok _ _ _ (sessionKey K salt) (strToBytes P) K C hnl
      (derive_key_ok_of_length K salt (by omega)) (gcmDecrypt_gcmEncrypt _ _ _ _)]
  rw [bytesToString_strToBytes]

/-- C1 witness: the round-trip at the concrete scenario of the spec. -/
theorem C1_encrypt_decrypt_roundtrip_witness :
    wSalt.length = 16 ∧ isBytes wSalt ∧ wNonce.length = 12 ∧ isBytes wNonce ∧
    ∃ env : EncryptedEnvelope,
      encrypt_with_context "hi" "k" "c" wSalt wNonce = Except.ok env ∧
      decrypt_with_context env.ciphertext env.salt env.nonce "k" "c" =
        Except.ok "hi" :=
  ⟨by decide, by decide, by decide, by decide,
    C1_encrypt_decrypt_roundtrip "hi" "k" "c" wSalt wNonce (by decide) (by decide)
      (by decide) (by decide)⟩

/-- C3: Tamper detection. For every envelope produced by
`encrypt_with_context` and every single-bit flip of the decoded ciphertext —
any byte position `i`, any bit `j`, covering both the encrypted body and the
appended 16-byte tag — `decrypt_with_context` on the modified ciphertext with
the original salt, nonce, key and context fails with the single
undifferentiated `AuthenticationFailed` error and never returns a partial
plaintext. -/
theorem C3_single_bit_tamper (P K C : String) (salt nonce_bytes : List Nat)
    (env : EncryptedEnvelope) (ct : List Nat) (i j : Nat)
    (hsl : salt.length = 16) (hsb : isBytes salt)
    (hnl : nonce_bytes.length = 12) (hnb : isBytes nonce_bytes)
    (henc : encrypt_with_context P K C salt nonce_bytes = Except.ok env)
    (hct : b64Decode env.ciphertext = some ct)
    (hi : i < ct.length) (hj : j < 8) :
    decrypt_with_context (b64Encode (ct.set i (ct.getD i 0 ^^^ 2 ^ j)))
      env.salt env.nonce K C = Except.error CryptoError.authenticationFailed := by
  rw [encrypt_with_context_eq P K C salt nonce_bytes (by omega)] at henc
  set ctE := gcmEncrypt (sessionKey K salt) nonce_bytes (strToBytes C)
    (strToBytes P) with hctE
  have hctEbytes : isBytes ctE := by
    rw [hctE]
    exact gcmEncrypt_bytes _ _ _ _ (strToBytes_bytes P)
  have henv : env =
      ⟨b64Encode ctE, b64Encode salt, b64Encode nonce_bytes⟩ := by
    injection henc with h
    exact h.symm
  have hcfield : env.ciphertext = b64Encode ctE := by rw [henv]
  have hsfield : env.salt = b64Encode salt := by rw [henv]
  have hnfield : env.nonce = b64Encode nonce_bytes := by rw [henv]
  rw [hcfield, b64Decode_b64Encode _ hctEbytes] at hct
  injection hct with hcteq
  subst hcteq
  rw [hsfield, hnfield]
  have hx : ctE.getD i 0 ^^^ 2 ^ j < 256 :=
    xor_flip_lt _ j (isBytes_getD ctE i hctEbytes hi) hj
  rw [decrypt_decoded_fields _ _ _ _ _
      (ctE.set i (ctE.getD i 0 ^^^ 2 ^ j)) salt nonce_bytes
      (b64Decode_b64Encode _ (isBytes_set ctE i _ hctEbytes hx))
      (b64Decode_b64Encode _ hsb) (b64Decode_b64Encode _ hnb)]
  refine decryptDecoded_auth_fail _ _ _ (sessionKey K salt) K C hnl
    (derive_key_ok_of_length K salt (by omega)) ?_
  rw [hctE] at hi ⊢
  exact gcmDecrypt_set_ne _ _ _ _ i j (strToBytes_bytes P) hi hj

/-- C3 witness: flipping the lowest bit of the first ciphertext byte of a
concrete envelope makes decryption fail with `AuthenticationFailed`. -/
theorem C3_single_bit_tamper_witness :
    encrypt_with_context "hi" "k" "c" wSalt wNonce = Except.ok wEnv ∧
    b64Decode wEnv.ciphertext = some wCt ∧ 0 < wCt.length ∧ 0 < 8 ∧
    decrypt_with_context (b64Encode (wCt.set 0 (wCt.getD 0 0 ^^^ 2 ^ 0)))
      wEnv.salt wEnv.nonce "k" "c" =
      Except.error CryptoError.authenticationFailed := by
  have hct : b64Decode wEnv.ciphertext = some wCt :=
    b64Decode_b64Encode wCt (by decide)
  exact ⟨rfl, hct, by decide, by decide,
    C3_single_bit_tamper "hi" "k" "c" wSalt wNonce wEnv wCt 0 0 (by decide)
      (by decide) (by decide) (by decide) rfl hct (by decide) (by decide)⟩

/-- C4: A decoded nonce of any length other than 12 bytes is rejected with
the `InvalidNonceLength` error before any cryptographic operation: the
result does not depend on the master key, and holds even for salts that key
derivation itself would reject, showing neither key derivation nor the
cipher runs. -/
theorem C4_nonce_length_check (ct_b64 salt_b64 nonce_b64 master_key
    aad_context : String) (ct salt nb : List Nat)
    (hc : b64Decode ct_b64 = some ct) (hs : b64Decode salt_b64 = some salt)
    (hn : b64Decode nonce_b64 = some nb) (hlen : nb.length ≠ 12) :
    decrypt_with_context ct_b64 salt_b64 nonce_b64 master_key aad_context =
      Except.error CryptoError.invalidNonceLength := by
  rw [decrypt_decoded_fields ct_b64 salt_b64 nonce_b64 master_key aad_context
    ct salt nb hc hs hn]
  exact decryptDecoded_nonceLen ct salt nb master_key aad_context hlen

/-- C4 witness: an 11-byte nonce (with an empty salt, which key derivation
would reject) yields `InvalidNonceLength`. -/
theorem C4_nonce_length_check_witness :
    b64Decode "" = some [] ∧
    b64Decode (b64Encode (List.replicate 11 0)) = some (List.replicate 11 0) ∧
    (List.replicate 11 0).length ≠ 12 ∧
    decrypt_with_context "" "" (b64Encode (List.replicate 11 0)) "k" "c" =
      Except.error CryptoError.invalidNonceLength :=
  ⟨by decide, by decide, by decide,
    C4_nonce_length_check "" "" (b64Encode (List.replicate 11 0)) "k" "c"
      [] [] (List.replicate 11 0) (by decide) (by decide) (by decide) (by decide)⟩

/-- C5: If one of the three base64 fields is malformed, the call fails
immediately with an `InvalidBase64` error naming the offending field —
"ciphertext", then "salt", then "nonce", in evaluation order — for every
master key and context, so neither key derivation nor decryption is
attempted. -/
theorem C5_invalid_base64 (ct_b64 salt_b64 nonce_b64 master_key
    aad_context : String) :
    (b64Decode ct_b64 = none →
      decrypt_with_context ct_b64 salt_b64 nonce_b64 master_key aad_context =
        Except.error (CryptoError.invalidBase64 "ciphertext")) ∧
    (∀ ct, b64Decode ct_b64 = some ct → b64Decode salt_b64 = none →
      decrypt_with_context ct_b64 salt_b64 nonce_b64 master_key aad_context =
        Except.error (CryptoError.invalidBase64 "salt")) ∧
    (∀ ct salt, b64Decode ct_b64 = some ct → b64Decode salt_b64 = some salt →
      b64Decode nonce_b64 = none →
      decrypt_with_context ct_b64 salt_b64 nonce_b64 master_key aad_context =
        Except.error (CryptoError.invalidBase64 "nonce")) := by
  refine ⟨?_, ?_, ?_⟩
  · intro h
    unfold decrypt_with_context
    rw [h]
  · intro ct hc h
    unfold decrypt_with_context
    rw [hc, h]
  · intro ct salt hc hs h
    unfold decrypt_with_context
    rw [hc, hs, h]

/-- C5 witness: `"!!!!"` is not base64; placing it in each field in turn
produces the error tagged with that field. -/
theorem C5_invalid_base64_witness :
    b64Decode "!!!!" = none ∧ b64Decode "AAAA" = some [0, 0, 0] ∧
    decrypt_with_context "!!!!" "AAAA" "AAAA" "k" "c" =
      Except.error (CryptoError.invalidBase64 "ciphertext") ∧
    decrypt_with_context "AAAA" "!!!!" "AAAA" "k" "c" =
      Except.error (CryptoError.invalidBase64 "salt") ∧
    decrypt_with_context "AAAA" "AAAA" "!!!!" "k" "c" =
      Except.error (CryptoError.invalidBase64 "nonce") :=
  ⟨by decide, by decide,
    (C5_invalid_base64 "!!!!" "AAAA" "AAAA" "k" "c").1 (by decide),
    (C5_invalid_base64 "AAAA" "!!!!" "AAAA" "k" "c").2.1 [0, 0, 0] (by decide)
      (by decide),
    (C5_invalid_base64 "AAAA" "AAAA" "!!!!" "k" "c").2.2 [0, 0, 0] [0, 0, 0]
      (by decide) (by decide) (by decide)⟩

/-- C6: Whenever the authenticated-decryption step succeeds but its byte
output is not well-formed UTF-8, the call fails with `InvalidUtf8`; and when
the bytes are valid UTF-8, the call returns exactly their UTF-8 decoding. -/
theorem C6_utf8_validation (ct_b64 salt_b64 nonce_b64 master_key
    aad_context : String) (ct salt nb key_bytes plaintext_bytes : List Nat)
    (hc : b64Decode ct_b64 = some ct) (hs : b64Decode salt_b64 = some salt)
    (hn : b64Decode nonce_b64 = some nb) (hlen : nb.length = 12)
    (hk : derive_key master_key salt = Except.ok key_bytes)
    (hg : gcmDecrypt key_bytes nb (strToBytes aad_context) ct =
      some plaintext_bytes) :
    (bytesToString plaintext_bytes = none →
      decrypt_with_context ct_b64 salt_b64 nonce_b64 master_key aad_context =
        Except.error CryptoError.invalidUtf8) ∧
    (∀ s, bytesToString plaintext_bytes = some s →
      decrypt_with_context ct_b64 salt_b64 nonce_b64 master_key aad_context =
        Except.ok s) := by
  constructor
  · intro hu
    rw [decrypt_decoded_fields ct_b64 salt_b64 nonce_b64 master_key aad_context
        ct salt nb hc hs hn,
      decryptDecoded_auth_ok ct salt nb key_bytes plaintext_bytes master_key
        aad_context hlen hk hg, hu]
  · intro s hu
    rw [decrypt_decoded_fields ct_b64 salt_b64 nonce_b64 master_key aad_context
        ct salt nb hc hs hn,
      decryptDecoded_auth_ok ct salt nb key_bytes plaintext_bytes master_key
        aad_context hlen hk hg, hu]

/-- The ciphertext of the non-UTF-8 byte `0xFF` under the witness key. -/
def wBadCt : List Nat := gcmEncrypt wKey wNonce (strToBytes "c") [255]

/-- C6 witness: a ciphertext decrypting to the byte `0xFF` yields
`InvalidUtf8`, and one decrypting to the UTF-8 bytes of "hi" yields "hi". -/
theorem C6_utf8_validation_witness :
    bytesToString [255] = none ∧
    decrypt_with_context (b64Encode wBadCt) (b64Encode wSalt) (b64Encode wNonce)
      "k" "c" = Except.error CryptoError.invalidUtf8 ∧
    bytesToString (strToBytes "hi") = some "hi" ∧
    decrypt_with_context (b64Encode wCt) (b64Encode wSalt) (b64Encode wNonce)
      "k" "c" = Except.ok "hi" :=
  ⟨by simp [bytesToString, utf8DecodeScalars],
    (C6_utf8_validation (b64Encode wBadCt) (b64Encode wSalt) (b64Encode wNonce)
      "k" "c" wBadCt wSalt wNonce wKey [255]
      (b64Decode_b64Encode wBadCt (by decide)) (b64Decode_b64Encode wSalt (by decide))
      (b64Decode_b64Encode wNonce (by decide)) (by decide) rfl
      (gcmDecrypt_gcmEncrypt wKey wNonce (strToBytes "c") [255])).1
      (by simp [bytesToString, utf8DecodeScalars]),
    bytesToString_strToBytes "hi",
    (C6_utf8_validation (b64Encode wCt) (b64Encode wSalt) (b64Encode wNonce)
      "k" "c" wCt wSalt wNonce wKey (strToBytes "hi")
      (b64Decode_b64Encode wCt (by decide)) (b64Decode_b64Encode wSalt (by decide))
      (b64Decode_b64Encode wNonce (by decide)) (by decide) rfl
      (gcmDecrypt_gcmEncrypt wKey wNonce (strToBytes "c") (strToBytes "hi"))).2
      "hi" (bytesToString_strToBytes "hi")⟩

/-- C7: Codec round-trip law: decoding the padded standard-alphabet base64
text produced by encoding any byte sequence yields exactly that sequence. -/
theorem C7_codec_roundtrip (b : List Nat) (hb : isBytes b) :
    b64Decode (b64Encode b) = some b :=
  b64Decode_b64Encode b hb

/-- C7 witness: the round-trip at a concrete byte sequence exercising all
three padding shapes is checked by evaluation. -/
theorem C7_codec_roundtrip_witness :
    isBytes [0, 255, 10, 77] ∧
    b64Decode (b64Encode [0, 255, 10, 77]) = some [0, 255, 10, 77] :=
  ⟨by decide, C7_codec_roundtrip [0, 255, 10, 77] (by decide)⟩

/-- C8: Key derivation is deterministic: any two calls on equal
(masterKey, salt) pairs return the same result, and a successful derivation
returns a 32-byte key — which is what lets decryption rebuild the
encryption key from the transmitted salt. -/
theorem C8_derive_deterministic (mk mk2 : String) (salt salt2 key : List Nat)
    (hmk : mk = mk2) (hsalt : salt = salt2)
    (hok : derive_key mk salt = Except.ok key) :
    derive_key mk2 salt2 = Except.ok key ∧ key.length = 32 :=
  ⟨hmk ▸ hsalt ▸ hok, derive_key_ok_length mk salt key hok⟩

/-- C8 witness: two calls with master key "k" and the witness salt agree and
produce a 32-byte key. -/
theorem C8_derive_deterministic_witness :
    derive_key "k" wSalt = Except.ok wKey ∧
    (derive_key "k" wSalt = Except.ok wKey ∧ wKey.length = 32) :=
  ⟨rfl, C8_derive_deterministic "k" "k" wSalt wSalt wKey rfl rfl rfl⟩

/-- C9: On success, the ciphertext field of the envelope decodes to the
UTF-8 byte length of the plaintext plus 16 (the appended tag), the salt
field decodes to the 16 salt bytes, and the nonce field to the 12 nonce
bytes. -/
theorem C9_envelope_lengths (P K C : String) (salt nonce_bytes : List Nat)
    (hsl : salt.length = 16) (hsb : isBytes salt)
    (hnl : nonce_bytes.length = 12) (hnb : isBytes nonce_bytes) :
    ∃ (env : EncryptedEnvelope) (ct : List Nat),
      encrypt_with_context P K C salt nonce_bytes = Except.ok env ∧
      b64Decode env.ciphertext = some ct ∧
      ct.length = (strToBytes P).length + 16 ∧
      b64Decode env.salt = some salt ∧ salt.length = 16 ∧
      b64Decode env.nonce = some nonce_bytes ∧ nonce_bytes.length = 12 := by
  refine ⟨⟨b64Encode (gcmEncrypt (sessionKey K salt) nonce_bytes (strToBytes C)
      (strToBytes P)), b64Encode salt, b64Encode nonce_bytes⟩,
    gcmEncrypt (sessionKey K salt) nonce_bytes (strToBytes C) (strToBytes P),
    encrypt_with_context_eq P K C salt nonce_bytes (by omega),
    b64Decode_b64Encode _ (gcmEncrypt_bytes _ _ _ _ (strToBytes_bytes P)),
    gcmEncrypt_length _ _ _ _,
    b64Decode_b64Encode _ hsb, hsl,
    b64Decode_b64Encode _ hnb, hnl⟩

/-- C9 witness: the envelope shape at the concrete witness inputs. -/
theorem C9_envelope_lengths_witness :
    wSalt.length = 16 ∧ isBytes wSalt ∧ wNonce.length = 12 ∧ isBytes wNonce ∧
    ∃ (env : EncryptedEnvelope) (ct : List Nat),
      encrypt_with_context "hi" "k" "c" wSalt wNonce = Except.ok env ∧
      b64Decode env.ciphertext = some ct ∧
      ct.length = (strToBytes "hi").length + 16 ∧
      b64Decode env.salt = some wSalt ∧ wSalt.length = 16 ∧
      b64Decode env.nonce = some wNonce ∧ wNonce.length = 12 :=
  ⟨by decide, by decide, by decide, by decide,
    C9_envelope_lengths "hi" "k" "c" wSalt wNonce (by decide) (by decide)
      (by decide) (by decide)⟩

/-- C10: `decrypt_with_context` has no dedicated length check on the decoded
salt (unlike the nonce): a salt below the key-derivation minimum of 8 bytes
surfaces as `KeyDerivationFailed`, not a validation error, and any salt of
at least 8 bytes — 16 or not — passes key derivation, which then never
reports `KeyDerivationFailed`. -/
theorem C10_salt_length_unchecked (ct_b64 salt_b64 nonce_b64 master_key
    aad_context : String) (ct salt nb : List Nat)
    (hc : b64Decode ct_b64 = some ct) (hs : b64Decode salt_b64 = some salt)
    (hn : b64Decode nonce_b64 = some nb) (hlen : nb.length = 12) :
    (salt.length < 8 →
      decrypt_with_context ct_b64 salt_b64 nonce_b64 master_key aad_context =
        Except.error (CryptoError.keyDerivationFailed
          "Key derivation failed: salt too short")) ∧
    (8 ≤ salt.length →
      ∀ cause, decrypt_with_context ct_b64 salt_b64 nonce_b64 master_key
        aad_context ≠ Except.error (CryptoError.keyDerivationFailed cause)) := by
  constructor
  · intro hshort
    rw [decrypt_decoded_fields ct_b64 salt_b64 nonce_b64 master_key aad_context
      ct salt nb hc hs hn]
    refine decryptDecoded_kdf_err ct salt nb master_key aad_context _ hlen ?_
    unfold derive_key
    rw [if_pos hshort]
  · intro hge cause
    rw [decrypt_decoded_fields ct_b64 salt_b64 nonce_b64 master_key aad_context
      ct salt nb hc hs hn]
    rcases hgd : gcmDecrypt (sessionKey master_key salt) nb
        (strToBytes aad_context) ct with _ | pb
    · rw [decryptDecoded_auth_fail ct salt nb (sessionKey master_key salt)
        master_key aad_context hlen (derive_key_ok_of_length master_key salt hge)
        hgd]
      simp
    · rw [decryptDecoded_auth_ok ct salt nb (sessionKey master_key salt) pb
        master_key aad_context hlen (derive_key_ok_of_length master_key salt hge)
        hgd]
      rcases hbs : bytesToString pb with _ | s
      · simp
      · simp

/-- C10 witness: a 4-byte salt yields `KeyDerivationFailed`; a 20-byte salt
(not 16!) passes key derivation and never reports it. -/
theorem C10_salt_length_unchecked_witness :
    (List.replicate 4 1).length < 8 ∧
    decrypt_with_context "" (b64Encode (List.replicate 4 1))
      (b64Encode wNonce) "k" "c" =
      Except.error (CryptoError.keyDerivationFailed
        "Key derivation failed: salt too short") ∧
    8 ≤ (List.replicate 20 1).length ∧
    decrypt_with_context "" (b64Encode (List.replicate 20 1))
      (b64Encode wNonce) "k" "c" ≠
      Except.error (CryptoError.keyDerivationFailed "anything") :=
  ⟨by decide,
    (C10_salt_length_unchecked "" (b64Encode (List.replicate 4 1))
      (b64Encode wNonce) "k" "c" [] (List.replicate 4 1) wNonce (by decide)
      (by decide) (by decide) (by decide)).1 (by decide),
    by decide,
    (C10_salt_length_unchecked "" (b64Encode (List.replicate 20 1))
      (b64Encode wNonce) "k" "c" [] (List.replicate 20 1) wNonce (by decide)
      (by decide) (by decide) (by decide)).2 (by decide) "anything"⟩

end RustCrypto
